import Mathlib

/-!
Verification development for a five-card-draw poker program
(`poker_game.py`).  The Python source is shallowly embedded: cards are
pairs of token strings, the deck is a list whose tail is the top (Python
`list.pop` takes the last element), fallible operations return `Option`
or carry their final state explicitly, and the stateful loops of the
source become structural recursions.
-/

set_option maxHeartbeats 1000000

namespace Poker

/-- A playing card, as parsed from the wire format `"<value> <color>"`:
the two whitespace-separated tokens. -/
structure Card where
  value : String
  color : String
deriving DecidableEq, Inhabited, Repr

/-- The four suit tokens (`colors` in `create_deck`). -/
def colors : List String := ["Karo", "Kier", "Pik", "Trefl"]

/-- The thirteen rank tokens (`values` in `create_deck`). -/
def values : List String :=
  ["2", "3", "4", "5", "6", "7", "8", "9", "10", "Jack", "Queen", "King", "As"]

/-- `create_deck`: every value×color combination, value-major, as in the
source's list comprehension `[f"{v} {c}" for v in values for c in colors]`. -/
def create_deck : List Card :=
  (values.map (fun v => colors.map (fun c => Card.mk v c))).flatten

/-- The `value_order` dictionary of `evaluate_hands`: rank token to its
numeric value, `none` for an unknown token (Python `KeyError`). -/
def value_order (s : String) : Option Nat :=
  if s = "2" then some 2
  else if s = "3" then some 3
  else if s = "4" then some 4
  else if s = "5" then some 5
  else if s = "6" then some 6
  else if s = "7" then some 7
  else if s = "8" then some 8
  else if s = "9" then some 9
  else if s = "10" then some 10
  else if s = "Jack" then some 11
  else if s = "Queen" then some 12
  else if s = "King" then some 13
  else if s = "As" then some 14
  else none

/-- One step of the `counts` dictionary build: `counts[v] = counts.get(v, 0) + 1`,
on an association list that keeps keys in insertion order. -/
def bump : List (Nat × Nat) → Nat → List (Nat × Nat)
  | [], v => [(v, 1)]
  | (k, n) :: rest, v =>
      if k = v then (k, n + 1) :: rest else (k, n) :: bump rest v

/-- The `counts` dictionary of `evaluate_hands`, built by folding `bump`
over the (sorted) hand values. -/
def countsA (vals : List Nat) : List (Nat × Nat) :=
  vals.foldl bump []

/-- The source's `is_flush` test: `len(set(hand_colors)) == 1`. -/
def is_flushB (hand : List Card) : Bool :=
  decide ((hand.map (fun c => c.color)).dedup.length = 1)

/-- The source's `is_straight` test on the already sorted hand values:
`hand_values == list(range(hand_values[0], hand_values[0] + len(hand_values)))`.
(On an empty list the source would raise before reaching this test; the
`false` result here is never consulted on that path.) -/
def straightSortedB : List Nat → Bool
  | [] => false
  | v0 :: rest => decide ((v0 :: rest) = List.range' v0 (rest.length + 1))

/-- `is_straight` as computed from the unsorted numeric values:
sort ascending first, as `hand_values.sort()` does. -/
def straightB (vals : List Nat) : Bool :=
  straightSortedB (List.insertionSort (· ≤ ·) vals)

/-- `evaluate_hands`: parse each card's value, sort the numeric values,
test flush and straight, build the descending count multiset, and walk
the classification cascade in source order.  `none` models a raised
`KeyError`/`IndexError`. -/
def evaluate_hands (hand : List Card) : Option (String × Nat) :=
  match hand.mapM (fun c => value_order c.value) with
  | none => none
  | some vals =>
    let hand_values := List.insertionSort (· ≤ ·) vals
    match hand_values with
    | [] => none
    | v0 :: rest =>
      let is_flush := is_flushB hand
      let is_straight := straightSortedB (v0 :: rest)
      let count_values :=
        List.insertionSort (· ≥ ·) ((countsA (v0 :: rest)).map (fun p => p.2))
      match count_values with
      | [] => none
      | k0 :: krest =>
        if is_flush ∧ is_straight then some ("Poker", 9)
        else if k0 = 4 then some ("Four of a Kind", 8)
        else if k0 = 3 then
          match krest with
          | [] => none
          | k1 :: _ =>
            if k1 = 2 then some ("Full House", 7)
            else if is_flush then some ("Flush", 6)
            else if is_straight then some ("Straight", 5)
            else some ("Three of a Kind", 4)
        else if is_flush then some ("Flush", 6)
        else if is_straight then some ("Straight", 5)
        else if k0 = 2 then
          match krest with
          | [] => none
          | k1 :: _ =>
            if k1 = 2 then some ("Two Pair", 3)
            else some ("One Pair", 2)
        else some ("High Card", 1)

/-! ### Dealing

`deal_cards` first shuffles, then pops one card per player per round.
A pop from an empty deck is Python's `IndexError`; the deck is mutated
in place, so the state at the moment of failure is part of the result:
the embedding returns `(Option hands, final deck)`. -/

/-- One round of the inner loop of `deal_cards`: each player in order
appends `deck.pop()` (the deck's last element) to their hand. -/
def dealRoundSt : List (List Card) → List Card →
    Option (List (List Card)) × List Card
  | [], deck => (some [], deck)
  | h :: hs, deck =>
    match deck.getLast? with
    | none => (none, deck)
    | some c =>
      match dealRoundSt hs deck.dropLast with
      | (some hs', deck') => (some ((h ++ [c]) :: hs'), deck')
      | (none, deck') => (none, deck')

/-- The outer loop of `deal_cards`: `cards_per_players` rounds. -/
def dealLoopSt : Nat → List (List Card) → List Card →
    Option (List (List Card)) × List Card
  | 0, hands, deck => (some hands, deck)
  | r + 1, hands, deck =>
    match dealRoundSt hands deck with
    | (some hands', deck') => dealLoopSt r hands' deck'
    | (none, deck') => (none, deck')

/-- `deal_cards(deck, num_players, cards_per_players)`.  The call to
`random.shuffle(deck)` is abstracted as an injected `shuffle` function
(theorems assume it produces a permutation of its input). -/
def deal_cards (shuffle : List Card → List Card) (deck : List Card)
    (num_players cards_per_players : Nat) :
    Option (List (List Card)) × List Card :=
  dealLoopSt cards_per_players (List.replicate num_players []) (shuffle deck)

/-! ### Exchanging cards

`exchange_cards` parses the human's input into a deduplicated,
descending list of 1-based indices and processes each: remove the card
at an in-range index, and insert `deck.pop()` there if the deck is
non-empty; out-of-range indices are reported and skipped. -/

/-- The `for i in indexes` loop body of `exchange_cards`. -/
def exchangeLoop : List Int → List Card → List Card → List Card × List Card
  | [], hand, deck => (hand, deck)
  | i :: is, hand, deck =>
    if 1 ≤ i ∧ i ≤ (hand.length : Int) then
      let hand1 := hand.eraseIdx (i - 1).toNat
      match deck.getLast? with
      | some c => exchangeLoop is (hand1.insertIdx (i - 1).toNat c) deck.dropLast
      | none => exchangeLoop is hand1 deck
    else exchangeLoop is hand deck

/-- `exchange_cards`, with the indices already parsed from the input
string: `sorted({int(i) for i in indexes_str.split()}, reverse=True)`
becomes dedup plus a descending sort.  (A blank or unparsable input
returns the hand unchanged, which coincides with the empty index list.) -/
def exchange_cards (idxs : List Int) (hand deck : List Card) :
    List Card × List Card :=
  exchangeLoop (List.insertionSort (· ≥ ·) idxs.dedup) hand deck

/-! ### Ranking and winner determination (`announce_winner`) -/

/-- A per-player evaluation tuple `(player, hand_name, strength)`. -/
abbrev Ev : Type := Nat × String × Nat

/-- The strength component of an evaluation tuple (`eval[2]`). -/
def strength (e : Ev) : Nat := e.2.2

/-- The ranking step of `announce_winner`:
`evaluations.sort(key=lambda x: x[2], reverse=True)` — a stable sort,
descending by strength. -/
def rank_evals (l : List Ev) : List Ev :=
  List.insertionSort (fun a b => strength b ≤ strength a) l

/-- The winner-selection step of `announce_winner`:
`top_strength = evaluations[0][2]` (an `IndexError` on an empty list,
hence `Option`) and the filter keeping every evaluation of maximal
strength. -/
def winners_of (l : List Ev) : Option (List Ev) :=
  match rank_evals l with
  | [] => none
  | top :: _ =>
    some ((rank_evals l).filter (fun e => strength e = strength top))

/-! ### Specification-side definitions

These follow the wording of the specification (§4.2, §4.3, §8) rather
than the source, so that the theorems compare the two. -/

/-- Modelled from the spec: a flush is five cards sharing one suit. -/
def specFlush (hand : List Card) : Prop :=
  ∃ s, ∀ c ∈ hand, c.color = s

/-- Modelled from the spec: a straight is a hand whose numeric values
form a contiguous run of five consecutive integers. -/
def specStraight (vals : List Nat) : Prop :=
  ∃ m, vals.Perm [m, m + 1, m + 2, m + 3, m + 4]

/-- The maximum of a list of naturals (`0` on the empty list). -/
def maxL (l : List Nat) : Nat := l.foldr max 0

/-- The minimum of a non-empty list of naturals (`0` on the empty list). -/
def minL : List Nat → Nat
  | [] => 0
  | [x] => x
  | x :: y :: t => min x (minL (y :: t))

/-- Modelled from the spec: the multiset of rank-value frequency counts,
sorted descending (§4.2 step 5). -/
def specCounts (vals : List Nat) : List Nat :=
  List.insertionSort (· ≥ ·) (vals.dedup.map (fun v => vals.count v))

/-- Modelled from the spec: the top (largest) frequency count. -/
def topCount (vals : List Nat) : Nat := (specCounts vals).headD 0

/-- Modelled from the spec: the second-largest frequency count
(with multiplicity). -/
def secondCount (vals : List Nat) : Nat := (specCounts vals).tail.headD 0

/-! ### Minimum / maximum helper lemmas -/

theorem le_maxL {a : Nat} {l : List Nat} (h : a ∈ l) : a ≤ maxL l := by
  induction l with
  | nil => cases h
  | cons x t ih =>
    rcases List.mem_cons.1 h with rfl | h'
    · exact le_max_left _ _
    · exact le_trans (ih h') (le_max_right _ _)

theorem maxL_le {b : Nat} {l : List Nat} (h : ∀ x ∈ l, x ≤ b) : maxL l ≤ b := by
  induction l with
  | nil => exact Nat.zero_le b
  | cons x t ih =>
    exact max_le (h x (List.mem_cons_self x t))
      (ih fun y hy => h y (List.mem_cons_of_mem x hy))

theorem minL_le {a : Nat} {l : List Nat} (h : a ∈ l) : minL l ≤ a := by
  induction l with
  | nil => cases h
  | cons x t ih =>
    cases t with
    | nil =>
      rcases List.mem_cons.1 h with rfl | h'
      · exact le_refl a
      · cases h'
    | cons y t' =>
      rcases List.mem_cons.1 h with rfl | h'
      · exact min_le_left _ _
      · exact le_trans (min_le_right _ _) (ih h')

theorem le_minL {b : Nat} {l : List Nat} (hne : l ≠ [])
    (h : ∀ x ∈ l, b ≤ x) : b ≤ minL l := by
  induction l with
  | nil => cases hne rfl
  | cons x t ih =>
    cases t with
    | nil => exact h x (List.mem_cons_self x [])
    | cons y t' =>
      refine le_min (h x (List.mem_cons_self x _)) ?_
      exact ih (by simp) fun z hz => h z (List.mem_cons_of_mem x hz)

/-! ### Flush characterisation -/

theorem dedup_length_one_iff {l : List String} (hne : l ≠ []) :
    l.dedup.length = 1 ↔ ∃ x, ∀ y ∈ l, y = x := by
  constructor
  · intro h
    obtain ⟨a, ha⟩ := List.length_eq_one.1 h
    refine ⟨a, fun y hy => ?_⟩
    have : y ∈ l.dedup := List.mem_dedup.2 hy
    rw [ha] at this
    simpa using this
  · rintro ⟨x, hx⟩
    induction l with
    | nil => cases hne rfl
    | cons a t ih =>
      have hax : a = x := hx a (List.mem_cons_self a t)
      cases t with
      | nil => simp
      | cons b t' =>
        have hbx : b = x := hx b (by simp)
        have hmem : a ∈ b :: t' := by
          rw [hax, hbx]; exact List.mem_cons_self x t'
        rw [List.dedup_cons_of_mem hmem]
        exact ih (by simp) fun y hy => hx y (List.mem_cons_of_mem a hy)

theorem is_flushB_iff {hand : List Card} (hne : hand ≠ []) :
    is_flushB hand = true ↔ specFlush hand := by
  unfold is_flushB specFlush
  rw [decide_eq_true_iff]
  rw [dedup_length_one_iff (by simpa using hne)]
  constructor
  · rintro ⟨x, hx⟩
    exact ⟨x, fun c hc => hx c.color (List.mem_map_of_mem _ hc)⟩
  · rintro ⟨s, hs⟩
    refine ⟨s, fun y hy => ?_⟩
    obtain ⟨c, hc, rfl⟩ := List.mem_map.1 hy
    exact hs c hc

/-! ### Straight characterisation -/

theorem range'_five (v0 : Nat) :
    List.range' v0 5 = [v0, v0 + 1, v0 + 2, v0 + 3, v0 + 4] := by
  simp [List.range'_succ]

theorem sorted_run (m : Nat) :
    List.Sorted (· ≤ ·) [m, m + 1, m + 2, m + 3, m + 4] := by
  simp [List.sorted_cons]

/-- The source's straight test agrees with the spec's contiguous-run
definition on five-card hands. -/
theorem straightB_iff_spec {vals : List Nat} (h5 : vals.length = 5) :
    straightB vals = true ↔ specStraight vals := by
  have hp : (List.insertionSort (· ≤ ·) vals).Perm vals := List.perm_insertionSort _ _
  have hs : List.Sorted (· ≤ ·) (List.insertionSort (· ≤ ·) vals) :=
    List.sorted_insertionSort _ _
  have hlen : (List.insertionSort (· ≤ ·) vals).length = 5 := by
    rw [hp.length_eq, h5]
  unfold straightB
  constructor
  · intro h
    cases hsort : List.insertionSort (· ≤ ·) vals with
    | nil => rw [hsort] at hlen; simp at hlen
    | cons v0 rest =>
      rw [hsort] at h hp hlen
      unfold straightSortedB at h
      rw [decide_eq_true_iff] at h
      have h5' : rest.length + 1 = 5 := by simpa using hlen
      rw [h5'] at h
      rw [range'_five] at h
      exact ⟨v0, (hp.symm).trans (by rw [h])⟩
  · rintro ⟨m, hperm⟩
    have hps : (List.insertionSort (· ≤ ·) vals).Perm [m, m + 1, m + 2, m + 3, m + 4] :=
      hp.trans hperm
    have heq : List.insertionSort (· ≤ ·) vals = [m, m + 1, m + 2, m + 3, m + 4] :=
      List.eq_of_perm_of_sorted hps hs (sorted_run m)
    rw [heq]
    unfold straightSortedB
    rw [decide_eq_true_iff]
    simpa using (range'_five m).symm

/-! ### Counts dictionary lemmas -/

/-- The keys of a counts association list, in insertion order. -/
def keysA : List (Nat × Nat) → List Nat
  | [] => []
  | (k, _) :: t => k :: keysA t

/-- Association-list lookup with default `0`. -/
def lookA : List (Nat × Nat) → Nat → Nat
  | [], _ => 0
  | (k, n) :: t, v => if k = v then n else lookA t v

theorem mem_keysA_bump {l : List (Nat × Nat)} {v k : Nat} :
    k ∈ keysA (bump l v) ↔ k ∈ keysA l ∨ k = v := by
  induction l with
  | nil => simp [bump, keysA]
  | cons p t ih =>
    obtain ⟨k', n'⟩ := p
    by_cases h : k' = v
    · subst h
      simp only [bump, if_pos rfl, keysA, List.mem_cons]
      tauto
    · simp only [bump, if_neg h, keysA, List.mem_cons]
      rw [ih]
      tauto

theorem keysA_nodup_bump {l : List (Nat × Nat)} {v : Nat}
    (h : (keysA l).Nodup) : (keysA (bump l v)).Nodup := by
  induction l with
  | nil => simp [bump, keysA]
  | cons p t ih =>
    obtain ⟨k', n'⟩ := p
    by_cases hkv : k' = v
    · subst hkv
      simpa [bump, keysA] using h
    · simp only [keysA, List.nodup_cons] at h
      have ht := ih h.2
      simp only [bump, if_neg hkv, keysA, List.nodup_cons]
      refine ⟨?_, ht⟩
      intro hc
      rcases (mem_keysA_bump).1 hc with h' | rfl
      · exact h.1 h'
      · exact hkv rfl

theorem lookA_bump_self (l : List (Nat × Nat)) (v : Nat) :
    lookA (bump l v) v = lookA l v + 1 := by
  induction l with
  | nil => simp [bump, lookA]
  | cons p t ih =>
    obtain ⟨k, n⟩ := p
    by_cases h : k = v
    · subst h; simp [bump, lookA]
    · simp [bump, lookA, if_neg h, ih]

theorem lookA_bump_other {l : List (Nat × Nat)} {v w : Nat} (h : w ≠ v) :
    lookA (bump l v) w = lookA l w := by
  induction l with
  | nil => simp [bump, lookA, Ne.symm h]
  | cons p t ih =>
    obtain ⟨k, n⟩ := p
    by_cases hk : k = v
    · subst hk
      simp [bump, lookA, Ne.symm h]
    · simp [bump, lookA, hk, ih]

theorem lookA_foldl_bump (l : List Nat) :
    ∀ acc w, lookA (l.foldl bump acc) w = lookA acc w + l.count w := by
  induction l with
  | nil => intro acc w; simp
  | cons v t ih =>
    intro acc w
    rw [List.foldl_cons, ih]
    by_cases h : w = v
    · subst h
      rw [lookA_bump_self]
      simp [List.count_cons]
      omega
    · rw [lookA_bump_other h]
      simp [List.count_cons, h]

theorem mem_keysA_foldl_bump (l : List Nat) :
    ∀ acc k, k ∈ keysA (l.foldl bump acc) ↔ k ∈ keysA acc ∨ k ∈ l := by
  induction l with
  | nil => intro acc k; simp
  | cons v t ih =>
    intro acc k
    rw [List.foldl_cons, ih, mem_keysA_bump]
    simp [List.mem_cons]
    tauto

theorem keysA_nodup_foldl_bump (l : List Nat) :
    ∀ acc, (keysA acc).Nodup → (keysA (l.foldl bump acc)).Nodup := by
  induction l with
  | nil => intro acc h; simpa using h
  | cons v t ih =>
    intro acc h
    exact ih _ (keysA_nodup_bump h)

theorem mem_keysA_of_mem :
    ∀ {l : List (Nat × Nat)} {k n : Nat}, (k, n) ∈ l → k ∈ keysA l := by
  intro l
  induction l with
  | nil => intro k n h; cases h
  | cons q t ih =>
    intro k n h
    obtain ⟨a, b⟩ := q
    rcases List.mem_cons.1 h with heq | hmem
    · obtain ⟨rfl, rfl⟩ := Prod.mk.inj heq
      simp [keysA]
    · simp only [keysA, List.mem_cons]
      exact Or.inr (ih hmem)

theorem lookA_of_mem {l : List (Nat × Nat)} (hnd : (keysA l).Nodup)
    {k n : Nat} (h : (k, n) ∈ l) : lookA l k = n := by
  induction l with
  | nil => cases h
  | cons p t ih =>
    obtain ⟨k', n'⟩ := p
    simp only [keysA, List.nodup_cons] at hnd
    rcases List.mem_cons.1 h with heq | hmem
    · obtain ⟨rfl, rfl⟩ := Prod.mk.inj heq
      simp [lookA]
    · have hkm : k ∈ keysA t := mem_keysA_of_mem hmem
      have hk : k' ≠ k := fun hkk => hnd.1 (hkk ▸ hkm)
      simp only [lookA, if_neg hk]
      exact ih hnd.2 hmem

theorem countsA_keys_nodup (vals : List Nat) : (keysA (countsA vals)).Nodup :=
  keysA_nodup_foldl_bump vals [] (by simp [keysA])

theorem countsA_mem_count {vals : List Nat} {k n : Nat}
    (h : (k, n) ∈ countsA vals) : n = vals.count k := by
  have h1 := lookA_of_mem (countsA_keys_nodup vals) h
  have h2 := lookA_foldl_bump vals [] k
  unfold countsA at h1
  rw [h1] at h2
  simpa [lookA] using h2

theorem countsA_keys_mem {vals k : _} :
    k ∈ keysA (countsA vals) ↔ k ∈ vals := by
  unfold countsA
  rw [mem_keysA_foldl_bump]
  simp [keysA]

/-- The multiset of dictionary values of `counts` is the multiset of
rank frequencies over the distinct ranks. -/
theorem countsA_snd_perm (vals : List Nat) :
    ((countsA vals).map (fun p => p.2)).Perm
      (vals.dedup.map (fun v => vals.count v)) := by
  have h1 : (countsA vals).map (fun p => p.2)
      = (countsA vals).map (fun p => vals.count p.1) := by
    apply List.map_congr_left
    intro p hp
    obtain ⟨k, n⟩ := p
    simpa using countsA_mem_count hp
  have h2 : ∀ l : List (Nat × Nat), l.map (fun p => vals.count p.1)
      = (keysA l).map (fun v => vals.count v) := by
    intro l
    induction l with
    | nil => simp [keysA]
    | cons q t ih' =>
      obtain ⟨a, b⟩ := q
      simp [keysA, ih']
  have h3 : (keysA (countsA vals)).Perm vals.dedup := by
    rw [List.perm_ext_iff_of_nodup (countsA_keys_nodup vals) (List.nodup_dedup vals)]
    intro a
    rw [countsA_keys_mem, List.mem_dedup]
  rw [h1, h2]
  exact h3.map _

/-- The descending count list computed by the source equals the
spec-side `specCounts`, for any permutation `s` of the raw values
(in the source, `s` is the ascending-sorted values). -/
theorem count_values_eq_specCounts {s vals : List Nat} (hp : s.Perm vals) :
    List.insertionSort (· ≥ ·) ((countsA s).map (fun p => p.2))
      = specCounts vals := by
  have hs1 : List.Sorted (· ≥ ·)
      (List.insertionSort (· ≥ ·) ((countsA s).map (fun p => p.2))) :=
    List.sorted_insertionSort _ _
  have hs2 : List.Sorted (· ≥ ·) (specCounts vals) :=
    List.sorted_insertionSort _ _
  have hperm : (List.insertionSort (· ≥ ·)
      ((countsA s).map (fun p => p.2))).Perm (specCounts vals) := by
    refine (List.perm_insertionSort _ _).trans ?_
    refine ((countsA_snd_perm s).trans ?_).trans
      (List.perm_insertionSort _ _).symm
    have hd : s.dedup.Perm vals.dedup := hp.dedup
    have hc : (s.dedup.map (fun v => s.count v))
        = s.dedup.map (fun v => vals.count v) := by
      apply List.map_congr_left
      intro a _
      exact hp.count_eq a
    rw [hc]
    exact hd.map _
  exact List.eq_of_perm_of_sorted hperm hs1 hs2

/-- The counts in `specCounts` sum to the number of cards. -/
theorem specCounts_sum (vals : List Nat) :
    (specCounts vals).sum = vals.length := by
  unfold specCounts
  rw [(List.perm_insertionSort _ _).sum_eq]
  exact List.sum_map_count_dedup_eq_length vals

/-! ### Unfolding `evaluate_hands` -/

theorem mapM_option_length {α β : Type} (f : α → Option β) :
    ∀ {l : List α} {res : List β}, l.mapM f = some res → res.length = l.length := by
  intro l
  induction l with
  | nil =>
    intro res h
    simp only [List.mapM_nil, Option.pure_def, Option.some.injEq] at h
    subst h
    rfl
  | cons a t ih =>
    intro res h
    rw [List.mapM_cons] at h
    cases hfa : f a with
    | none => rw [hfa] at h; simp at h
    | some b =>
      rw [hfa] at h
      cases hmt : t.mapM f with
      | none => rw [hmt] at h; simp at h
      | some bs =>
        rw [hmt] at h
        simp at h
        subst h
        simp [ih hmt]

theorem mapM_option_none {α β : Type} (f : α → Option β) :
    ∀ {l : List α}, (∃ a ∈ l, f a = none) → l.mapM f = none := by
  intro l
  induction l with
  | nil => rintro ⟨a, ha, _⟩; cases ha
  | cons x t ih =>
    rintro ⟨a, ha, hfa⟩
    rw [List.mapM_cons]
    rcases List.mem_cons.1 ha with rfl | hmem
    · rw [hfa]; rfl
    · cases hfx : f x with
      | none => rfl
      | some b => rw [ih ⟨a, hmem, hfa⟩]; rfl

theorem evaluate_hands_eq {hand : List Card} {vals : List Nat} {v0 : Nat}
    {rest : List Nat} {k0 : Nat} {krest : List Nat}
    (hv : hand.mapM (fun c => value_order c.value) = some vals)
    (hsort : List.insertionSort (· ≤ ·) vals = v0 :: rest)
    (hcv : List.insertionSort (· ≥ ·)
      ((countsA (v0 :: rest)).map (fun p => p.2)) = k0 :: krest) :
    evaluate_hands hand =
      (if is_flushB hand ∧ straightSortedB (v0 :: rest) then some ("Poker", 9)
       else if k0 = 4 then some ("Four of a Kind", 8)
       else if k0 = 3 then
         match krest with
         | [] => none
         | k1 :: _ =>
           if k1 = 2 then some ("Full House", 7)
           else if is_flushB hand then some ("Flush", 6)
           else if straightSortedB (v0 :: rest) then some ("Straight", 5)
           else some ("Three of a Kind", 4)
       else if is_flushB hand then some ("Flush", 6)
       else if straightSortedB (v0 :: rest) then some ("Straight", 5)
       else if k0 = 2 then
         match krest with
         | [] => none
         | k1 :: _ =>
           if k1 = 2 then some ("Two Pair", 3)
           else some ("One Pair", 2)
       else some ("High Card", 1)) := by
  unfold evaluate_hands
  rw [hv]
  simp only [hsort, hcv]
  cases krest <;> rfl

open Classical in
/-- C1: every valid 5-card hand is classified by the exact
first-match-wins precedence order: flush and straight give
`("Poker", 9)` (the source's internal label for a straight flush);
top rank-count 4 gives `("Four of a Kind", 8)`; top count 3 with second
count 2 gives `("Full House", 7)`; flush alone `("Flush", 6)`; straight
alone `("Straight", 5)`; top count 3 `("Three of a Kind", 4)`; top
count 2 with second count 2 `("Two Pair", 3)`; top count 2
`("One Pair", 2)`; otherwise `("High Card", 1)`. -/
theorem evaluate_precedence (hand : List Card) (vals : List Nat)
    (hv : hand.mapM (fun c => value_order c.value) = some vals)
    (hlen : hand.length = 5) :
    evaluate_hands hand = some
      (if specFlush hand ∧ specStraight vals then ("Poker", 9)
       else if topCount vals = 4 then ("Four of a Kind", 8)
       else if topCount vals = 3 ∧ secondCount vals = 2 then ("Full House", 7)
       else if specFlush hand then ("Flush", 6)
       else if specStraight vals then ("Straight", 5)
       else if topCount vals = 3 then ("Three of a Kind", 4)
       else if topCount vals = 2 ∧ secondCount vals = 2 then ("Two Pair", 3)
       else if topCount vals = 2 then ("One Pair", 2)
       else ("High Card", 1)) := by
  have hvlen : vals.length = 5 := by rw [mapM_option_length _ hv, hlen]
  have hp0 : (List.insertionSort (· ≤ ·) vals).Perm vals :=
    List.perm_insertionSort _ _
  cases hsort : List.insertionSort (· ≤ ·) vals with
  | nil =>
    rw [hsort] at hp0
    have := hp0.length_eq
    rw [hvlen] at this
    simp at this
  | cons v0 rest =>
    rw [hsort] at hp0
    have hcv0 : List.insertionSort (· ≥ ·)
        ((countsA (v0 :: rest)).map (fun p => p.2)) = specCounts vals :=
      count_values_eq_specCounts hp0
    have hsum : (specCounts vals).sum = 5 := by rw [specCounts_sum, hvlen]
    cases hsc : specCounts vals with
    | nil => rw [hsc] at hsum; simp at hsum
    | cons k0 krest =>
      have hcv : List.insertionSort (· ≥ ·)
          ((countsA (v0 :: rest)).map (fun p => p.2)) = k0 :: krest := by
        rw [hcv0, hsc]
      rw [evaluate_hands_eq hv hsort hcv]
      have htop : topCount vals = k0 := by rw [topCount, hsc]; rfl
      have hsec : secondCount vals = krest.headD 0 := by
        rw [secondCount, hsc]; rfl
      have hne : hand ≠ [] := by
        intro h
        rw [h] at hlen
        simp at hlen
      have hflush := is_flushB_iff hne
      have hstraightB : straightB vals = straightSortedB (v0 :: rest) := by
        unfold straightB
        rw [hsort]
      have hstraight : straightSortedB (v0 :: rest) = true ↔ specStraight vals := by
        rw [← hstraightB]
        exact straightB_iff_spec hvlen
      have hsum5 : (k0 :: krest).sum = 5 := by rw [← hsc]; exact hsum
      rw [htop, hsec]
      by_cases hf : specFlush hand <;> by_cases hst : specStraight vals
      · -- flush and straight
        simp [hflush.2 hf, hstraight.2 hst, hf, hst]
      · -- flush, not straight
        have hfb := hflush.2 hf
        have hsb : straightSortedB (v0 :: rest) = false :=
          Bool.eq_false_iff.2 fun h => hst (hstraight.1 h)
        by_cases h4 : k0 = 4
        · simp [hfb, hsb, hf, hst, h4]
        · by_cases h3 : k0 = 3
          · cases krest with
            | nil => rw [h3] at hsum5; simp at hsum5
            | cons k1 kt =>
              by_cases hk2 : k1 = 2 <;>
                simp [hfb, hsb, hf, hst, h4, h3, hk2]
          · simp [hfb, hsb, hf, hst, h4, h3]
      · -- straight, not flush
        have hfb : is_flushB hand = false :=
          Bool.eq_false_iff.2 fun h => hf (hflush.1 h)
        have hsb := hstraight.2 hst
        by_cases h4 : k0 = 4
        · simp [hfb, hsb, hf, hst, h4]
        · by_cases h3 : k0 = 3
          · cases krest with
            | nil => rw [h3] at hsum5; simp at hsum5
            | cons k1 kt =>
              by_cases hk2 : k1 = 2 <;>
                simp [hfb, hsb, hf, hst, h4, h3, hk2]
          · simp [hfb, hsb, hf, hst, h4, h3]
      · -- neither flush nor straight
        have hfb : is_flushB hand = false :=
          Bool.eq_false_iff.2 fun h => hf (hflush.1 h)
        have hsb : straightSortedB (v0 :: rest) = false :=
          Bool.eq_false_iff.2 fun h => hst (hstraight.1 h)
        by_cases h4 : k0 = 4
        · simp [hfb, hsb, hf, hst, h4]
        · by_cases h3 : k0 = 3
          · cases krest with
            | nil => rw [h3] at hsum5; simp at hsum5
            | cons k1 kt =>
              by_cases hk2 : k1 = 2 <;>
                simp [hfb, hsb, hf, hst, h4, h3, hk2]
          · by_cases h2 : k0 = 2
            · cases krest with
              | nil => rw [h2] at hsum5; simp at hsum5
              | cons k1 kt =>
                by_cases hk2 : k1 = 2 <;>
                  simp [hfb, hsb, hf, hst, h4, h3, h2, hk2]
            · simp [hfb, hsb, hf, hst, h4, h3, h2]

/-! ### Max-minus-min characterisation of a straight -/

theorem maxL_eq_of {x : Nat} {l : List Nat} (h : x ∈ l)
    (h2 : ∀ y ∈ l, y ≤ x) : maxL l = x :=
  le_antisymm (maxL_le h2) (le_maxL h)

theorem minL_eq_of {x : Nat} {l : List Nat} (hne : l ≠ []) (h : x ∈ l)
    (h2 : ∀ y ∈ l, x ≤ y) : minL l = x :=
  le_antisymm (minL_le h) (le_minL hne h2)

theorem specStraight_iff_maxmin {vals : List Nat} (h5 : vals.length = 5) :
    specStraight vals ↔ vals.Nodup ∧ maxL vals - minL vals = 4 := by
  constructor
  · rintro ⟨m, hperm⟩
    have hrun : ([m, m + 1, m + 2, m + 3, m + 4] : List Nat).Nodup := by
      simp
    have hne : vals ≠ [] := by
      intro h
      rw [h] at h5
      simp at h5
    refine ⟨hperm.nodup_iff.2 hrun, ?_⟩
    have hmax : maxL vals = m + 4 := by
      refine maxL_eq_of (hperm.mem_iff.2 (by simp)) ?_
      intro y hy
      have : y ∈ [m, m + 1, m + 2, m + 3, m + 4] := hperm.mem_iff.1 hy
      simp at this
      omega
    have hmin : minL vals = m := by
      refine minL_eq_of hne (hperm.mem_iff.2 (by simp)) ?_
      intro y hy
      have : y ∈ [m, m + 1, m + 2, m + 3, m + 4] := hperm.mem_iff.1 hy
      simp at this
      omega
    rw [hmax, hmin]
    omega
  · rintro ⟨hnd, hmm⟩
    have hp0 : (List.insertionSort (· ≤ ·) vals).Perm vals :=
      List.perm_insertionSort _ _
    have hs0 : List.Sorted (· ≤ ·) (List.insertionSort (· ≤ ·) vals) :=
      List.sorted_insertionSort _ _
    have hlen : (List.insertionSort (· ≤ ·) vals).length = 5 := by
      rw [hp0.length_eq, h5]
    obtain ⟨a, b, c, d, e, hseq⟩ :
        ∃ a b c d e, List.insertionSort (· ≤ ·) vals = [a, b, c, d, e] := by
      cases h0 : List.insertionSort (· ≤ ·) vals with
      | nil => rw [h0] at hlen; simp at hlen
      | cons a t0 =>
        cases t0 with
        | nil => rw [h0] at hlen; simp at hlen
        | cons b t1 =>
          cases t1 with
          | nil => rw [h0] at hlen; simp at hlen
          | cons c t2 =>
            cases t2 with
            | nil => rw [h0] at hlen; simp at hlen
            | cons d t3 =>
              cases t3 with
              | nil => rw [h0] at hlen; simp at hlen
              | cons e t4 =>
                cases t4 with
                | nil => exact ⟨a, b, c, d, e, rfl⟩
                | cons f t5 => rw [h0] at hlen; simp at hlen
    rw [hseq] at hp0 hs0
    have hchain : a ≤ b ∧ b ≤ c ∧ c ≤ d ∧ d ≤ e := by
      simp [List.sorted_cons] at hs0
      omega
    have hsnd : ([a, b, c, d, e] : List Nat).Nodup := hp0.nodup_iff.2 hnd
    have hdist : a ≠ b ∧ b ≠ c ∧ c ≠ d ∧ d ≠ e := by
      simp at hsnd
      tauto
    have hmemall : ∀ y ∈ vals, y ∈ ([a, b, c, d, e] : List Nat) :=
      fun y hy => hp0.mem_iff.2 hy
    have hmax : maxL vals = e := by
      refine maxL_eq_of (hp0.mem_iff.1 (by simp)) ?_
      intro y hy
      have := hmemall y hy
      simp at this
      omega
    have hmin : minL vals = a := by
      have hne : vals ≠ [] := by
        intro h
        rw [h] at h5
        simp at h5
      refine minL_eq_of hne (hp0.mem_iff.1 (by simp)) ?_
      intro y hy
      have := hmemall y hy
      simp at this
      omega
    rw [hmax, hmin] at hmm
    have hstep : b = a + 1 ∧ c = a + 2 ∧ d = a + 3 ∧ e = a + 4 := by
      simp at hsnd
      omega
    refine ⟨a, hp0.symm.trans ?_⟩
    obtain ⟨rfl, rfl, rfl, rfl⟩ := hstep
    exact List.Perm.refl _

open Classical in
/-- C2: `evaluate_hands` recognises a straight exactly when the five
numeric rank values are distinct with maximum minus minimum equal to 4
(Ace always valued 14); the Ace-low hand 2-3-4-5-Ace is not a straight,
and with all suits equal it evaluates to `("Flush", 6)`. -/
theorem straight_exact_no_ace_low (hand : List Card) (vals : List Nat)
    (hv : hand.mapM (fun c => value_order c.value) = some vals)
    (hlen : hand.length = 5) :
    (straightB vals = true ↔ vals.Nodup ∧ maxL vals - minL vals = 4) ∧
    value_order "As" = some 14 ∧
    ¬ specStraight [2, 3, 4, 5, 14] ∧
    evaluate_hands
      [⟨"2", "Pik"⟩, ⟨"3", "Pik"⟩, ⟨"4", "Pik"⟩, ⟨"5", "Pik"⟩, ⟨"As", "Pik"⟩]
      = some ("Flush", 6) := by
  have hvlen : vals.length = 5 := by rw [mapM_option_length _ hv, hlen]
  refine ⟨?_, by simp [value_order], ?_, by rfl⟩
  · rw [straightB_iff_spec hvlen]
    exact specStraight_iff_maxmin hvlen
  · intro h
    have h2 : ([2, 3, 4, 5, 14] : List Nat).Nodup ∧
        maxL [2, 3, 4, 5, 14] - minL [2, 3, 4, 5, 14] = 4 :=
      (specStraight_iff_maxmin (by simp)).1 h
    have : maxL [2, 3, 4, 5, 14] = 14 := by simp [maxL]
    have hm : minL [(2 : Nat), 3, 4, 5, 14] = 2 := by simp [minL]
    omega

/-! ### Invalid-card handling -/

/-- C4 (amended): a hand containing a card whose rank token is outside
the rank vocabulary makes `evaluate_hands` fail (the dictionary lookup
raises), and the failure propagates as the absence of a result.  Suit
tokens, by contrast, are never validated (see the counterexample). -/
theorem evaluate_fails_on_unknown_rank (hand : List Card)
    (h : ∃ c ∈ hand, value_order c.value = none) :
    evaluate_hands hand = none := by
  unfold evaluate_hands
  rw [mapM_option_none _ h]

/-- C4 witness: a concrete hand with rank token "Foo" fails. -/
theorem evaluate_fails_on_unknown_rank_witness :
    (∃ c ∈ [Card.mk "Foo" "Pik", Card.mk "3" "Kier", Card.mk "4" "Karo",
      Card.mk "5" "Trefl", Card.mk "7" "Pik"], value_order c.value = none) ∧
    evaluate_hands [Card.mk "Foo" "Pik", Card.mk "3" "Kier", Card.mk "4" "Karo",
      Card.mk "5" "Trefl", Card.mk "7" "Pik"] = none := by
  refine ⟨⟨Card.mk "Foo" "Pik", by simp, by rfl⟩, ?_⟩
  exact evaluate_fails_on_unknown_rank _ ⟨Card.mk "Foo" "Pik", by simp, by rfl⟩

/-- C4 counterexample: a five-card hand whose suit token "X" is outside
the suit vocabulary is silently accepted by `evaluate_hands` (and even
classified as a flush), contradicting the claim that every malformed
card fails evaluation. -/
theorem evaluate_accepts_unknown_suit :
    "X" ∉ colors ∧
    evaluate_hands [Card.mk "2" "X", Card.mk "3" "X", Card.mk "4" "X",
      Card.mk "5" "X", Card.mk "7" "X"] = some ("Flush", 6) := by
  exact ⟨by decide, by rfl⟩

/-! ### Ranking and winners -/

instance : IsTotal Ev (fun a b => strength b ≤ strength a) :=
  ⟨fun a b => le_total (strength b) (strength a)⟩

instance : IsTrans Ev (fun a b => strength b ≤ strength a) :=
  ⟨fun _ _ _ h1 h2 => le_trans h2 h1⟩

theorem filter_orderedInsert (a : Ev) (l : List Ev) (s : Nat) :
    (List.orderedInsert (fun x y => strength y ≤ strength x) a l).filter
        (fun e => decide (strength e = s)) =
      if strength a = s then
        a :: l.filter (fun e => decide (strength e = s))
      else l.filter (fun e => decide (strength e = s)) := by
  induction l with
  | nil =>
    by_cases hpa : strength a = s <;> simp [hpa]
  | cons b t ih =>
    by_cases hr : strength b ≤ strength a
    · have hstep : List.orderedInsert (fun x y => strength y ≤ strength x) a
          (b :: t) = a :: b :: t := by
        simp [List.orderedInsert, hr]
      rw [hstep]
      by_cases hpa : strength a = s <;> simp [hpa]
    · have hlt : strength a < strength b := Nat.lt_of_not_le hr
      have hstep : List.orderedInsert (fun x y => strength y ≤ strength x) a
          (b :: t) = b :: List.orderedInsert
            (fun x y => strength y ≤ strength x) a t := by
        simp [List.orderedInsert, hr]
      rw [hstep]
      by_cases hpa : strength a = s
      · have hpb : ¬ strength b = s := by omega
        simp [hpa, hpb, List.filter_cons, ih]
      · by_cases hpb : strength b = s <;>
          simp [hpa, hpb, List.filter_cons, ih]

theorem filter_rank_evals (l : List Ev) (s : Nat) :
    (rank_evals l).filter (fun e => decide (strength e = s)) =
      l.filter (fun e => decide (strength e = s)) := by
  induction l with
  | nil => rfl
  | cons a t ih =>
    have hstep : rank_evals (a :: t) =
        List.orderedInsert (fun x y => strength y ≤ strength x) a
          (rank_evals t) := rfl
    rw [hstep, filter_orderedInsert]
    by_cases hpa : strength a = s <;> simp [hpa, List.filter_cons, ih]

/-- C6: the ranking step orders evaluations descending by strength with
a stable sort: the result is a permutation, sorted so that each entry's
strength is at least the next one's, and for every strength value the
entries of that strength appear in their original relative order (their
filtered subsequence is unchanged); on strengths `[5, 9, 9, 2]` the
result is ordered `[9, 9, 5, 2]` with the two 9-entries in input order. -/
theorem rank_evals_stable_desc (l : List Ev) :
    (rank_evals l).Perm l ∧
    List.Sorted (fun a b => strength b ≤ strength a) (rank_evals l) ∧
    (∀ s : Nat, (rank_evals l).filter (fun e => decide (strength e = s)) =
      l.filter (fun e => decide (strength e = s))) ∧
    rank_evals [(1, "a", 5), (2, "b", 9), (3, "c", 9), (4, "d", 2)] =
      [(2, "b", 9), (3, "c", 9), (1, "a", 5), (4, "d", 2)] := by
  refine ⟨List.perm_insertionSort _ _, List.sorted_insertionSort _ _,
    fun s => filter_rank_evals l s, by rfl⟩

/-- C5: the winner set is exactly the set of players whose strength
equals the maximum strength; over strengths `[7, 7, 3]` both strength-7
players win, over `[9, 3, 3]` exactly one player wins. -/
theorem winners_are_max_strength (l : List Ev) (hne : l ≠ []) :
    (∃ w, winners_of l = some w ∧
      ∀ e, e ∈ w ↔ e ∈ l ∧ strength e = maxL (l.map strength)) ∧
    winners_of [(1, "a", 7), (2, "b", 7), (3, "c", 3)] =
      some [(1, "a", 7), (2, "b", 7)] ∧
    winners_of [(1, "a", 9), (2, "b", 3), (3, "c", 3)] =
      some [(1, "a", 9)] := by
  refine ⟨?_, by rfl, by rfl⟩
  have hp : (rank_evals l).Perm l := List.perm_insertionSort _ _
  have hs : List.Sorted (fun a b => strength b ≤ strength a) (rank_evals l) :=
    List.sorted_insertionSort _ _
  cases h0 : rank_evals l with
  | nil =>
    rw [h0] at hp
    exact absurd hp.symm.eq_nil hne
  | cons top rest =>
    refine ⟨(top :: rest).filter (fun e => decide (strength e = strength top)),
      ?_, ?_⟩
    · unfold winners_of
      rw [h0]
    · rw [h0] at hp hs
      have htopmem : top ∈ l := hp.mem_iff.1 (by simp)
      have hbound : ∀ e ∈ l, strength e ≤ strength top := by
        intro e he
        rcases List.mem_cons.1 (hp.mem_iff.2 he) with rfl | hr
        · exact le_refl _
        · exact (List.sorted_cons.1 hs).1 e hr
      have hmax : maxL (l.map strength) = strength top := by
        refine maxL_eq_of (List.mem_map.2 ⟨top, htopmem, rfl⟩) ?_
        intro y hy
        obtain ⟨e, he, rfl⟩ := List.mem_map.1 hy
        exact hbound e he
      intro e
      rw [List.mem_filter, hmax, decide_eq_true_iff, hp.mem_iff]

/-! ### Dealing lemmas -/

theorem getD_take_of_lt (l : List Card) {j n : Nat} (h : j < n) :
    (l.take n).getD j default = l.getD j default := by
  rw [List.getD_eq_getElem?_getD, List.getD_eq_getElem?_getD,
    List.getElem?_take_of_lt h]

theorem getLast?_eq_getD {deck : List Card} (h : deck ≠ []) :
    deck.getLast? = some (deck.getD (deck.length - 1) default) := by
  have hlen : 0 < deck.length := List.length_pos.2 h
  rw [List.getLast?_eq_getElem?, List.getD_eq_getElem?_getD,
    List.getElem?_eq_getElem (by omega)]
  rfl

/-- One dealing round succeeds when the deck holds a card per player:
it takes `#players` cards off the tail, appending to each player's hand
the card at distance `i + 1` from the end. -/
theorem dealRoundSt_success :
    ∀ (hs : List (List Card)) (deck : List Card),
    hs.length ≤ deck.length →
    ∃ hs', dealRoundSt hs deck =
        (some hs', deck.take (deck.length - hs.length)) ∧
      hs'.length = hs.length ∧
      ∀ i, i < hs.length →
        hs'.getD i [] =
          hs.getD i [] ++ [deck.getD (deck.length - 1 - i) default] := by
  intro hs
  induction hs with
  | nil =>
    intro deck _
    exact ⟨[], by simp [dealRoundSt], rfl, by intro i hi; cases hi⟩
  | cons h t ih =>
    intro deck hlen
    have hne : deck ≠ [] := by
      intro h0
      rw [h0] at hlen
      simp at hlen
    have hdl : deck.dropLast = deck.take (deck.length - 1) :=
      List.dropLast_eq_take deck
    have hdlen : deck.dropLast.length = deck.length - 1 := by
      rw [hdl, List.length_take]
      omega
    have hlen' : t.length ≤ deck.dropLast.length := by
      rw [hdlen]
      simp at hlen
      omega
    obtain ⟨hs'', hrec, hrlen, hrpos⟩ := ih deck.dropLast hlen'
    refine ⟨(h ++ [deck.getD (deck.length - 1) default]) :: hs'', ?_, ?_, ?_⟩
    · show dealRoundSt (h :: t) deck = _
      unfold dealRoundSt
      rw [getLast?_eq_getD hne, hrec]
      have hT : deck.dropLast.take (deck.dropLast.length - t.length)
          = deck.take (deck.length - (h :: t).length) := by
        rw [hdl, List.take_take, List.length_take]
        congr 1
        simp only [List.length_cons]
        simp only [List.length_cons] at hlen
        omega
      rw [hT]
    · simp [hrlen]
    · intro i hi
      cases i with
      | zero => simp
      | succ j =>
        have hj : j < t.length := by simpa using hi
        have := hrpos j hj
        simp only [List.getD_cons_succ]
        rw [this, hdlen]
        have hidx : deck.length - 1 - 1 - j = deck.length - 1 - (j + 1) := by
          omega
        rw [hidx]
        congr 2
        rw [hdl]
        have hlt : deck.length - 1 - (j + 1) < deck.length - 1 := by
          simp at hlen
          omega
        exact getD_take_of_lt deck hlt

/-- A dealing round with fewer deck cards than players drains the deck
and fails (the embedded `IndexError`). -/
theorem dealRoundSt_fail :
    ∀ (hs : List (List Card)) (deck : List Card),
    deck.length < hs.length → dealRoundSt hs deck = (none, []) := by
  intro hs
  induction hs with
  | nil => intro deck h; simp at h
  | cons h t ih =>
    intro deck hlen
    cases hd : deck with
    | nil => simp [dealRoundSt]
    | cons c0 drest =>
      rw [← hd]
      have hne : deck ≠ [] := by rw [hd]; simp
      have hpos : 0 < deck.length := by rw [hd]; simp
      have hdlen : deck.dropLast.length = deck.length - 1 := by
        rw [List.dropLast_eq_take, List.length_take]
        omega
      have hlt : deck.dropLast.length < t.length := by
        simp only [List.length_cons] at hlen
        omega
      unfold dealRoundSt
      rw [getLast?_eq_getD hne, ih deck.dropLast hlt]

/-- Multiset conservation for one round. -/
theorem dealRoundSt_perm :
    ∀ (hs : List (List Card)) (deck : List Card) hs' deck',
    dealRoundSt hs deck = (some hs', deck') →
    (hs'.flatten ++ deck').Perm (hs.flatten ++ deck) := by
  intro hs
  induction hs with
  | nil =>
    intro deck hs' deck' h
    unfold dealRoundSt at h
    simp only [Prod.mk.injEq, Option.some.injEq] at h
    obtain ⟨rfl, rfl⟩ := h
    exact List.Perm.refl _
  | cons h t ih =>
    intro deck hs' deck' heq
    unfold dealRoundSt at heq
    cases hlast : deck.getLast? with
    | none => rw [hlast] at heq; simp at heq
    | some c =>
      rw [hlast] at heq
      cases hrec : dealRoundSt t deck.dropLast with
      | mk ores drest =>
        cases ores with
        | none => rw [hrec] at heq; simp at heq
        | some hs'' =>
          rw [hrec] at heq
          simp only [Prod.mk.injEq, Option.some.injEq] at heq
          obtain ⟨rfl, rfl⟩ := heq
          have hIH := ih deck.dropLast hs'' drest hrec
          have hdeck : deck.dropLast ++ [c] = deck :=
            List.dropLast_append_getLast? c hlast
          simp only [List.flatten_cons, List.append_assoc]
          refine List.Perm.append_left h ?_
          have s1 : ([c] ++ (hs''.flatten ++ drest)).Perm
              ([c] ++ (t.flatten ++ deck.dropLast)) :=
            List.Perm.append_left [c] hIH
          have s2 : ([c] ++ (t.flatten ++ deck.dropLast)).Perm
              ((t.flatten ++ deck.dropLast) ++ [c]) :=
            List.perm_append_comm
          have s3 : ((t.flatten ++ deck.dropLast) ++ [c]).Perm
              (t.flatten ++ deck) := by
            rw [List.append_assoc, hdeck]
          exact (s1.trans s2).trans s3

/-- The round-robin pick list: the cards player `i` receives over `k`
rounds from the tail of deck `d` with `n` players. -/
def picks (d : List Card) (n i k : Nat) : List Card :=
  (List.range k).map (fun r => d.getD (d.length - 1 - (r * n + i)) default)

theorem picks_succ {d : List Card} {n i k : Nat} (hi : i < n)
    (hnk : n * (k + 1) ≤ d.length) :
    picks d n i (k + 1) =
      d.getD (d.length - 1 - i) default ::
        picks (d.take (d.length - n)) n i k := by
  unfold picks
  rw [List.range_succ_eq_map]
  simp only [List.map_cons, List.map_map]
  congr 1
  · norm_num
  · apply List.map_congr_left
    intro r hr
    have hrk : r < k := List.mem_range.1 hr
    have e1 : (r + 1) * n = r * n + n := by ring
    have e2 : (r + 1) * n ≤ k * n := Nat.mul_le_mul_right n (by omega)
    have e3 : n * (k + 1) = k * n + n := by ring
    have hLn : (d.take (d.length - n)).length = d.length - n := by
      rw [List.length_take]
      omega
    simp only [Function.comp]
    rw [hLn]
    have hj : d.length - n - 1 - (r * n + i) < d.length - n := by omega
    rw [getD_take_of_lt d hj]
    have hidx : d.length - 1 - ((r + 1) * n + i)
        = d.length - n - 1 - (r * n + i) := by
      rw [e1]
      omega
    rw [hidx]

theorem dealLoopSt_succ_some (r : Nat) (hands : List (List Card))
    (deck : List Card) {hs1 : List (List Card)} {deck1 : List Card}
    (h : dealRoundSt hands deck = (some hs1, deck1)) :
    dealLoopSt (r + 1) hands deck = dealLoopSt r hs1 deck1 := by
  show (match dealRoundSt hands deck with
    | (some hands', deck') => dealLoopSt r hands' deck'
    | (none, deck') => (none, deck')) = dealLoopSt r hs1 deck1
  rw [h]

theorem dealLoopSt_succ_none (r : Nat) (hands : List (List Card))
    (deck : List Card) {deck1 : List Card}
    (h : dealRoundSt hands deck = (none, deck1)) :
    dealLoopSt (r + 1) hands deck = (none, deck1) := by
  show (match dealRoundSt hands deck with
    | (some hands', deck') => dealLoopSt r hands' deck'
    | (none, deck') => (none, deck')) = (none, deck1)
  rw [h]

/-- The dealing loop: with enough cards, `k` rounds succeed, each hand
receiving its round-robin picks and the deck losing `n * k` tail cards. -/
theorem dealLoopSt_success :
    ∀ (k : Nat) (hs : List (List Card)) (deck : List Card),
    hs.length * k ≤ deck.length →
    ∃ hs', dealLoopSt k hs deck =
        (some hs', deck.take (deck.length - hs.length * k)) ∧
      hs'.length = hs.length ∧
      ∀ i, i < hs.length →
        hs'.getD i [] = hs.getD i [] ++ picks deck hs.length i k := by
  intro k
  induction k with
  | zero =>
    intro hs deck _
    refine ⟨hs, ?_, rfl, ?_⟩
    · simp [dealLoopSt]
    · intro i hi
      simp [picks]
  | succ k ih =>
    intro hs deck hcount
    have hms : hs.length * (k + 1) = hs.length * k + hs.length := by ring
    have hn : hs.length ≤ deck.length := by
      rw [hms] at hcount
      omega
    obtain ⟨hs1, hr1, hlen1, hpos1⟩ := dealRoundSt_success hs deck hn
    have hdeck1len : (deck.take (deck.length - hs.length)).length
        = deck.length - hs.length := by
      rw [List.length_take]
      omega
    have hcount1 : hs1.length * k ≤ (deck.take (deck.length - hs.length)).length := by
      rw [hdeck1len, hlen1]
      rw [hms] at hcount
      omega
    obtain ⟨hs', hr2, hlen2, hpos2⟩ :=
      ih hs1 (deck.take (deck.length - hs.length)) hcount1
    refine ⟨hs', ?_, by rw [hlen2, hlen1], ?_⟩
    · rw [dealLoopSt_succ_some k hs deck hr1, hr2, hlen1]
      have htake : (deck.take (deck.length - hs.length)).take
          ((deck.take (deck.length - hs.length)).length - hs.length * k)
          = deck.take (deck.length - hs.length * (k + 1)) := by
        rw [List.take_take, hdeck1len]
        congr 1
        rw [hms] at hcount ⊢
        omega
      rw [htake]
    · intro i hi
      have hi1 : i < hs1.length := by rw [hlen1]; exact hi
      rw [hpos2 i hi1, hpos1 i hi, hlen1]
      have hpick : picks deck hs.length i (k + 1)
          = deck.getD (deck.length - 1 - i) default ::
              picks (deck.take (deck.length - hs.length)) hs.length i k := by
        exact picks_succ hi hcount
      rw [hpick]
      simp

/-- With insufficient cards the dealing loop fails after draining the
whole deck. -/
theorem dealLoopSt_fail :
    ∀ (k : Nat) (hs : List (List Card)) (deck : List Card),
    hs ≠ [] → deck.length < hs.length * k →
    dealLoopSt k hs deck = (none, []) := by
  intro k
  induction k with
  | zero =>
    intro hs deck _ h
    simp at h
  | succ k ih =>
    intro hs deck hne hcount
    by_cases hn : deck.length < hs.length
    · rw [dealLoopSt_succ_none k hs deck (dealRoundSt_fail hs deck hn)]
    · push_neg at hn
      obtain ⟨hs1, hr1, hlen1, _⟩ := dealRoundSt_success hs deck hn
      rw [dealLoopSt_succ_some k hs deck hr1]
      have hpos : 0 < hs.length := List.length_pos.2 hne
      refine ih hs1 _ ?_ ?_
      · intro h0
        rw [h0] at hlen1
        simp at hlen1
        omega
      · rw [List.length_take, hlen1]
        have hms : hs.length * (k + 1) = hs.length * k + hs.length := by ring
        rw [hms] at hcount
        omega

/-- Multiset conservation for the dealing loop. -/
theorem dealLoopSt_perm :
    ∀ (k : Nat) (hs : List (List Card)) (deck : List Card) hs' deck',
    dealLoopSt k hs deck = (some hs', deck') →
    (hs'.flatten ++ deck').Perm (hs.flatten ++ deck) := by
  intro k
  induction k with
  | zero =>
    intro hs deck hs' deck' h
    unfold dealLoopSt at h
    simp only [Prod.mk.injEq, Option.some.injEq] at h
    obtain ⟨rfl, rfl⟩ := h
    exact List.Perm.refl _
  | succ k ih =>
    intro hs deck hs' deck' h
    cases hr : dealRoundSt hs deck with
    | mk ores drest =>
      cases ores with
      | none =>
        rw [dealLoopSt_succ_none k hs deck hr] at h
        simp at h
      | some hs1 =>
        rw [dealLoopSt_succ_some k hs deck hr] at h
        exact (ih hs1 drest hs' deck' h).trans
          (dealRoundSt_perm hs deck hs1 drest hr)

theorem flatten_replicate_nil (n : Nat) :
    (List.replicate n ([] : List Card)).flatten = [] := by
  induction n with
  | zero => rfl
  | succ k ih => simp [List.replicate, ih]

theorem getD_replicate_nil (n i : Nat) :
    (List.replicate n ([] : List Card)).getD i [] = [] := by
  rw [List.getD_eq_getElem?_getD, List.getElem?_replicate]
  by_cases h : i < n <;> simp [h]

/-- C7: with sufficient cards, dealing removes `n * k` cards from the
tail of the (shuffled) deck, distributing them round-robin — the card at
distance `r * n + i + 1` from the tail goes to player `i` in round `r` —
and on a fresh 52-card deck with 4 players and 5 cards each it leaves
32 cards and produces 4 hands of 5 cards with no card in two hands. -/
theorem deal_cards_round_robin (shuffle : List Card → List Card)
    (deck : List Card) (n k : Nat)
    (hshuf : ∀ d, (shuffle d).Perm d)
    (hnd : deck.Nodup) (hcount : n * k ≤ deck.length) :
    (∃ hands,
      deal_cards shuffle deck n k =
        (some hands, (shuffle deck).take (deck.length - n * k)) ∧
      hands.length = n ∧
      (∀ i, i < n → hands.getD i [] = picks (shuffle deck) n i k) ∧
      (∀ i, i < n → (hands.getD i []).length = k) ∧
      hands.flatten.Nodup) ∧
    (deal_cards id create_deck 4 5).2.length = 32 ∧
    ((deal_cards id create_deck 4 5).1.getD []).length = 4 ∧
    (∀ h ∈ (deal_cards id create_deck 4 5).1.getD [], h.length = 5) ∧
    ((deal_cards id create_deck 4 5).1.getD []).flatten.Nodup := by
  refine ⟨?_, by decide, by decide, by decide, by decide⟩
  have hslen : (shuffle deck).length = deck.length := (hshuf deck).length_eq
  have hrep : (List.replicate n ([] : List Card)).length = n :=
    List.length_replicate n []
  have hcount' : (List.replicate n ([] : List Card)).length * k
      ≤ (shuffle deck).length := by
    rw [hrep, hslen]
    exact hcount
  obtain ⟨hands, heq, hlen, hpos⟩ :=
    dealLoopSt_success k (List.replicate n []) (shuffle deck) hcount'
  rw [hrep] at hlen
  have hperm : (hands.flatten ++
      ((shuffle deck).take ((shuffle deck).length - n * k))).Perm deck := by
    have h1 := dealLoopSt_perm k (List.replicate n []) (shuffle deck) hands
      ((shuffle deck).take ((shuffle deck).length -
        (List.replicate n ([] : List Card)).length * k)) (by rw [heq, hrep])
    rw [flatten_replicate_nil, hrep] at h1
    simpa using h1.trans (hshuf deck)
  refine ⟨hands, ?_, hlen, ?_, ?_, ?_⟩
  · unfold deal_cards
    rw [heq, hrep, hslen]
  · intro i hi
    have := hpos i (by rw [hrep]; exact hi)
    rw [this, hrep, getD_replicate_nil]
    simp
  · intro i hi
    have := hpos i (by rw [hrep]; exact hi)
    rw [this, hrep, getD_replicate_nil]
    simp [picks]
  · rw [hslen] at hperm
    exact (List.nodup_append.1 (hperm.nodup_iff.2 hnd)).1

/-- C10: `deal_cards` applies the shuffle permutation to the whole deck
before removing any card, and dealing conserves the multiset of cards:
the dealt hands together with the remaining deck are a permutation of
the original deck, for every shuffle that permutes its input. -/
theorem deal_cards_conserves (shuffle : List Card → List Card)
    (deck : List Card) (n k : Nat)
    (hshuf : ∀ d, (shuffle d).Perm d)
    (hcount : n * k ≤ deck.length) :
    ∃ hands rest, deal_cards shuffle deck n k = (some hands, rest) ∧
      (hands.flatten ++ rest).Perm deck := by
  have hslen : (shuffle deck).length = deck.length := (hshuf deck).length_eq
  have hrep : (List.replicate n ([] : List Card)).length = n :=
    List.length_replicate n []
  have hcount' : (List.replicate n ([] : List Card)).length * k
      ≤ (shuffle deck).length := by
    rw [hrep, hslen]
    exact hcount
  obtain ⟨hands, heq, -, -⟩ :=
    dealLoopSt_success k (List.replicate n []) (shuffle deck) hcount'
  refine ⟨hands, _, heq, ?_⟩
  have h1 := dealLoopSt_perm k (List.replicate n []) (shuffle deck) hands _ heq
  rw [flatten_replicate_nil] at h1
  simpa using h1.trans (hshuf deck)

/-- C3 (amended): when `numPlayers * cardsPerPlayer` exceeds the deck
size, the deal fails (a pop from the empty deck), but it is not atomic:
the deck has been shuffled and drained to empty at the moment of
failure, not left unmodified. -/
theorem deal_cards_insufficient_drains (shuffle : List Card → List Card)
    (deck : List Card) (n k : Nat)
    (hshuf : ∀ d, (shuffle d).Perm d)
    (hcount : deck.length < n * k) :
    deal_cards shuffle deck n k = (none, []) := by
  have hn : 0 < n := by
    rcases Nat.eq_zero_or_pos n with rfl | h
    · simp at hcount
    · exact h
  have hslen : (shuffle deck).length = deck.length := (hshuf deck).length_eq
  have hrep : (List.replicate n ([] : List Card)).length = n :=
    List.length_replicate n []
  unfold deal_cards
  refine dealLoopSt_fail k (List.replicate n []) (shuffle deck) ?_ ?_
  · intro h0
    rw [h0] at hrep
    simp at hrep
    omega
  · rw [hrep, hslen]
    exact hcount

/-- C3 counterexample: on the one-card deck with `1 × 2` cards
requested, the deal fails but the deck is drained to `[]`, not left
unmodified — refuting the claimed atomicity. -/
theorem deal_cards_insufficient_not_atomic :
    deal_cards id [Card.mk "2" "Pik"] 1 2 = (none, []) ∧
    (deal_cards id [Card.mk "2" "Pik"] 1 2).2 ≠ [Card.mk "2" "Pik"] := by
  exact ⟨by rfl, by decide⟩

/-! ### Exchange lemmas -/

/-- A 1-based position is in range for a hand of length `n`
(the source's `1 <= i <= len(hand)` check). -/
def inRangeB (n : Nat) (i : Int) : Bool := decide (1 ≤ i ∧ i ≤ (n : Int))

theorem getD_set_ne (l : List Card) (c : Card) {k j : Nat} (h : k ≠ j) :
    (l.set k c).getD j default = l.getD j default := by
  rw [List.getD_eq_getElem?_getD, List.getD_eq_getElem?_getD,
    List.getElem?_set_ne h]

theorem getD_set_self (l : List Card) (c : Card) {k : Nat}
    (h : k < l.length) :
    (l.set k c).getD k default = c := by
  rw [List.getD_eq_getElem?_getD, List.getElem?_set_self h]
  rfl

theorem eraseIdx_insertIdx_eq_set (c : Card) :
    ∀ (l : List Card) (k : Nat), k < l.length →
    (l.eraseIdx k).insertIdx k c = l.set k c := by
  intro l
  induction l with
  | nil => intro k h; simp at h
  | cons a t ih =>
    intro k h
    cases k with
    | zero => simp [List.eraseIdx, List.insertIdx_zero]
    | succ j =>
      have hj : j < t.length := by simpa using h
      simp only [List.eraseIdx, List.insertIdx_succ_cons, List.set]
      rw [ih j hj]

theorem exchangeLoop_cons_in_some {i : Int} {is : List Int}
    {hand deck : List Card} (hin : 1 ≤ i ∧ i ≤ (hand.length : Int))
    (hne : deck ≠ []) :
    exchangeLoop (i :: is) hand deck =
      exchangeLoop is
        (hand.set (i - 1).toNat (deck.getD (deck.length - 1) default))
        deck.dropLast := by
  have hk : (i - 1).toNat < hand.length := by
    obtain ⟨h1, h2⟩ := hin
    omega
  show (if 1 ≤ i ∧ i ≤ (hand.length : Int) then
      match deck.getLast? with
      | some c => exchangeLoop is
          ((hand.eraseIdx (i - 1).toNat).insertIdx (i - 1).toNat c)
          deck.dropLast
      | none => exchangeLoop is (hand.eraseIdx (i - 1).toNat) deck
    else exchangeLoop is hand deck) = _
  rw [if_pos hin, getLast?_eq_getD hne]
  show exchangeLoop is
      (List.insertIdx (i - 1).toNat (deck.getD (deck.length - 1) default)
        (hand.eraseIdx (i - 1).toNat)) deck.dropLast = _
  rw [eraseIdx_insertIdx_eq_set _ _ _ hk]

theorem exchangeLoop_cons_in_none {i : Int} {is : List Int}
    {hand : List Card} (hin : 1 ≤ i ∧ i ≤ (hand.length : Int)) :
    exchangeLoop (i :: is) hand [] =
      exchangeLoop is (hand.eraseIdx (i - 1).toNat) [] := by
  show (if 1 ≤ i ∧ i ≤ (hand.length : Int) then
      match ([] : List Card).getLast? with
      | some c => exchangeLoop is
          ((hand.eraseIdx (i - 1).toNat).insertIdx (i - 1).toNat c)
          ([] : List Card).dropLast
      | none => exchangeLoop is (hand.eraseIdx (i - 1).toNat) []
    else exchangeLoop is hand []) = _
  rw [if_pos hin]
  rfl

theorem exchangeLoop_cons_out {i : Int} {is : List Int}
    {hand deck : List Card} (hout : ¬(1 ≤ i ∧ i ≤ (hand.length : Int))) :
    exchangeLoop (i :: is) hand deck = exchangeLoop is hand deck := by
  show (if 1 ≤ i ∧ i ≤ (hand.length : Int) then
      match deck.getLast? with
      | some c => exchangeLoop is
          ((hand.eraseIdx (i - 1).toNat).insertIdx (i - 1).toNat c)
          deck.dropLast
      | none => exchangeLoop is (hand.eraseIdx (i - 1).toNat) deck
    else exchangeLoop is hand deck) = _
  rw [if_neg hout]

/-- The exchange loop invariant, for a strictly descending position
list and a deck holding at least one card per in-range position: the
hand length is preserved, the deck loses one tail card per in-range
position, untouched positions keep their card, and the in-range
position `i` ends up holding the deck card at distance `rank + 1` from
the tail, where `rank` counts the in-range positions processed before
`i` (those greater than `i`). -/
theorem exchangeLoop_spec :
    ∀ (is : List Int) (hand deck : List Card),
    is.Pairwise (· > ·) →
    (is.filter (inRangeB hand.length)).length ≤ deck.length →
    (exchangeLoop is hand deck).1.length = hand.length ∧
    (exchangeLoop is hand deck).2 =
      deck.take (deck.length - (is.filter (inRangeB hand.length)).length) ∧
    (∀ j : Nat, j < hand.length → ((j : Int) + 1) ∉ is →
      (exchangeLoop is hand deck).1.getD j default = hand.getD j default) ∧
    (∀ i : Int, i ∈ is → 1 ≤ i → i ≤ (hand.length : Int) →
      (exchangeLoop is hand deck).1.getD (i - 1).toNat default =
        deck.getD (deck.length - 1 -
          (is.filter (fun j => inRangeB hand.length j
            && decide (i < j))).length) default) := by
  intro is
  induction is with
  | nil =>
    intro hand deck _ _
    refine ⟨rfl, by simp [exchangeLoop], ?_, ?_⟩
    · intro j _ _
      rfl
    · intro i hi
      cases hi
  | cons i is ih =>
    intro hand deck hpw hdeck
    have hpw' : is.Pairwise (· > ·) := (List.pairwise_cons.1 hpw).2
    have hgt : ∀ j ∈ is, j < i := (List.pairwise_cons.1 hpw).1
    by_cases hin : 1 ≤ i ∧ i ≤ (hand.length : Int)
    · have hinB : inRangeB hand.length i = true := decide_eq_true hin
      have hflen : ((i :: is).filter (inRangeB hand.length)).length
          = (is.filter (inRangeB hand.length)).length + 1 := by
        rw [List.filter_cons, hinB]
        simp
      have hdlenpos : 1 ≤ deck.length := by
        rw [hflen] at hdeck
        omega
      have hne : deck ≠ [] := by
        intro h0
        rw [h0] at hdlenpos
        simp at hdlenpos
      have hkl : (i - 1).toNat < hand.length := by
        obtain ⟨h1, h2⟩ := hin
        omega
      have hstep := @exchangeLoop_cons_in_some i is hand deck hin hne
      have hlenset : (hand.set (i - 1).toNat
          (deck.getD (deck.length - 1) default)).length = hand.length :=
        List.length_set hand _ _
      have hdl : deck.dropLast = deck.take (deck.length - 1) :=
        List.dropLast_eq_take deck
      have hdllen : deck.dropLast.length = deck.length - 1 := by
        rw [hdl, List.length_take]
        omega
      have hdeck' : (is.filter (inRangeB (hand.set (i - 1).toNat
          (deck.getD (deck.length - 1) default)).length)).length
          ≤ deck.dropLast.length := by
        rw [hlenset, hdllen]
        rw [hflen] at hdeck
        omega
      obtain ⟨ihl, ihd, ihj, ihi⟩ := ih (hand.set (i - 1).toNat
        (deck.getD (deck.length - 1) default)) deck.dropLast hpw' hdeck'
      rw [hlenset] at ihl ihd ihj ihi
      rw [hstep]
      refine ⟨ihl, ?_, ?_, ?_⟩
      · rw [ihd, hdl, List.take_take, List.length_take, hflen]
        congr 1
        rw [hflen] at hdeck
        omega
      · intro j hj hnot
        have hnoti : ((j : Int) + 1) ≠ i ∧ ((j : Int) + 1) ∉ is := by
          constructor
          · intro h0
            exact hnot (h0 ▸ List.mem_cons_self i is)
          · intro h0
            exact hnot (List.mem_cons_of_mem i h0)
        rw [ihj j hj hnoti.2]
        apply getD_set_ne
        have := hnoti.1
        omega
      · intro i' hi' h1' h2'
        rcases List.mem_cons.1 hi' with rfl | hmem
        · have hknotin : (((i' - 1).toNat : Int) + 1) ∉ is := by
            intro hmem'
            have := hgt _ hmem'
            omega
          rw [ihj (i' - 1).toNat hkl hknotin,
            getD_set_self hand _ hkl]
          have hrank : ((i' :: is).filter (fun j => inRangeB hand.length j
              && decide (i' < j))).length = 0 := by
            rw [List.length_eq_zero, List.filter_eq_nil_iff]
            intro a ha
            rcases List.mem_cons.1 ha with rfl | hmem'
            · simp
            · have := hgt _ hmem'
              simp only [Bool.and_eq_true, decide_eq_true_eq]
              intro hc
              omega
          rw [hrank]
          simp
        · rw [ihi i' hmem h1' h2']
          have hps : (inRangeB hand.length i && decide (i' < i)) = true := by
            simp only [Bool.and_eq_true, decide_eq_true_eq]
            exact ⟨hinB, hgt _ hmem⟩
          have hr : ((i :: is).filter (fun j => inRangeB hand.length j
              && decide (i' < j))).length
              = (is.filter (fun j => inRangeB hand.length j
                && decide (i' < j))).length + 1 := by
            rw [List.filter_cons, hps]
            simp
          rw [hr, hdllen, hdl]
          have hm1 : 1 ≤ (is.filter (inRangeB hand.length)).length := by
            have : i' ∈ is.filter (inRangeB hand.length) :=
              List.mem_filter.2 ⟨hmem, decide_eq_true ⟨h1', h2'⟩⟩
            exact List.length_pos.2 (List.ne_nil_of_mem this)
          have hlen2 : 2 ≤ deck.length := by
            rw [hflen] at hdeck
            omega
          have hjlt : deck.length - 1 - 1 -
              (is.filter (fun j => inRangeB hand.length j
                && decide (i' < j))).length < deck.length - 1 := by
            omega
          rw [getD_take_of_lt deck hjlt]
          have hidx : deck.length - 1 - 1 -
              (is.filter (fun j => inRangeB hand.length j
                && decide (i' < j))).length
              = deck.length - 1 -
                ((is.filter (fun j => inRangeB hand.length j
                  && decide (i' < j))).length + 1) := by
            omega
          rw [hidx]
    · have hinB : inRangeB hand.length i = false := decide_eq_false hin
      have hflen : ((i :: is).filter (inRangeB hand.length)).length
          = (is.filter (inRangeB hand.length)).length := by
        rw [List.filter_cons, hinB]
        simp
      rw [exchangeLoop_cons_out hin]
      obtain ⟨ihl, ihd, ihj, ihi⟩ := ih hand deck hpw'
        (by rw [hflen] at hdeck; exact hdeck)
      refine ⟨ihl, by rw [ihd, hflen], ?_, ?_⟩
      · intro j hj hnot
        exact ihj j hj (fun h => hnot (List.mem_cons_of_mem i h))
      · intro i' hi' h1' h2'
        rcases List.mem_cons.1 hi' with rfl | hmem
        · exact absurd ⟨h1', h2'⟩ hin
        · rw [ihi i' hmem h1' h2']
          have hr : ((i :: is).filter (fun j => inRangeB hand.length j
              && decide (i' < j))).length
              = (is.filter (fun j => inRangeB hand.length j
                && decide (i' < j))).length := by
            rw [List.filter_cons]
            simp [hinB]
          rw [hr]

/-- C8 (amended): provided the deck holds at least one card per
in-range position, exchanging processes the deduplicated positions in
descending order; every in-range position's card is removed and
replaced at the same position by a card drawn from the deck's tail (the
position ranked `r`-th in descending order receives the card at
distance `r + 1` from the tail), so the hand length is preserved and
the deck shrinks by the number of in-range positions; out-of-range
positions are ignored, and with no positions the hand and deck are
returned unchanged. -/
theorem exchange_cards_spec (idxs : List Int) (hand deck : List Card)
    (hdeck : (idxs.dedup.filter (inRangeB hand.length)).length
      ≤ deck.length) :
    (exchange_cards idxs hand deck).1.length = hand.length ∧
    (exchange_cards idxs hand deck).2 = deck.take (deck.length -
      (idxs.dedup.filter (inRangeB hand.length)).length) ∧
    (∀ j : Nat, j < hand.length → ((j : Int) + 1) ∉ idxs →
      (exchange_cards idxs hand deck).1.getD j default
        = hand.getD j default) ∧
    (∀ i : Int, i ∈ idxs → 1 ≤ i → i ≤ (hand.length : Int) →
      (exchange_cards idxs hand deck).1.getD (i - 1).toNat default
        = deck.getD (deck.length - 1 -
            (idxs.dedup.filter (fun j => inRangeB hand.length j
              && decide (i < j))).length) default) ∧
    exchange_cards [] hand deck = (hand, deck) := by
  have hperm : (List.insertionSort (· ≥ ·) idxs.dedup).Perm idxs.dedup :=
    List.perm_insertionSort _ _
  have hnd : (List.insertionSort (· ≥ ·) idxs.dedup).Nodup :=
    hperm.nodup_iff.2 (List.nodup_dedup idxs)
  have hsorted : List.Sorted (· ≥ ·) (List.insertionSort (· ≥ ·) idxs.dedup) :=
    List.sorted_insertionSort _ _
  have hpw : (List.insertionSort (· ≥ ·) idxs.dedup).Pairwise (· > ·) :=
    List.Pairwise.imp₂ (fun a b hge hne => lt_of_le_of_ne hge (Ne.symm hne))
      hsorted hnd
  have hm : ∀ p : Int → Bool,
      ((List.insertionSort (· ≥ ·) idxs.dedup).filter p).length
        = (idxs.dedup.filter p).length :=
    fun p => (hperm.filter p).length_eq
  have hmem : ∀ a : Int,
      a ∈ List.insertionSort (· ≥ ·) idxs.dedup ↔ a ∈ idxs := by
    intro a
    rw [hperm.mem_iff, List.mem_dedup]
  have hdeck' : ((List.insertionSort (· ≥ ·) idxs.dedup).filter
      (inRangeB hand.length)).length ≤ deck.length := by
    rw [hm]
    exact hdeck
  obtain ⟨h1, h2, h3, h4⟩ := exchangeLoop_spec
    (List.insertionSort (· ≥ ·) idxs.dedup) hand deck hpw hdeck'
  refine ⟨h1, ?_, ?_, ?_, rfl⟩
  · rw [show (exchange_cards idxs hand deck).2
      = (exchangeLoop (List.insertionSort (· ≥ ·) idxs.dedup) hand deck).2
      from rfl, h2, hm]
  · intro j hj hnot
    exact h3 j hj (fun hmem' => hnot ((hmem _).1 hmem'))
  · intro i hi hi1 hi2
    rw [show (exchange_cards idxs hand deck).1
      = (exchangeLoop (List.insertionSort (· ≥ ·) idxs.dedup) hand deck).1
      from rfl, h4 i ((hmem i).2 hi) hi1 hi2, hm]

/-- C8 counterexample: with the non-empty one-card deck and in-range
positions 1 and 3 on a five-card hand, the exchanged hand has length 4,
not 5 — a non-empty deck alone does not make exchange length-preserving. -/
theorem exchange_short_deck_shrinks_hand :
    ([Card.mk "8" "Pik"] : List Card) ≠ [] ∧
    ([Card.mk "2" "Pik", Card.mk "3" "Kier", Card.mk "4" "Karo",
      Card.mk "5" "Trefl", Card.mk "7" "Pik"] : List Card).length = 5 ∧
    (exchange_cards [1, 3]
      [Card.mk "2" "Pik", Card.mk "3" "Kier", Card.mk "4" "Karo",
        Card.mk "5" "Trefl", Card.mk "7" "Pik"]
      [Card.mk "8" "Pik"]).1.length = 4 := by
  exact ⟨by decide, by decide, by decide⟩

/-- C9: during exchange, an in-range position hit while the deck is
empty has its card removed with no replacement inserted — the hand is
left one card shorter for that slot — and processing continues with the
remaining positions (non-fatal). -/
theorem exchange_deck_exhausted (hand : List Card) (i : Int)
    (is : List Int) (h1 : 1 ≤ i) (h2 : i ≤ (hand.length : Int)) :
    exchangeLoop (i :: is) hand [] =
      exchangeLoop is (hand.eraseIdx (i - 1).toNat) [] ∧
    (hand.eraseIdx (i - 1).toNat).length + 1 = hand.length := by
  refine ⟨exchangeLoop_cons_in_none ⟨h1, h2⟩, ?_⟩
  have hk : (i - 1).toNat < hand.length := by omega
  rw [List.length_eraseIdx_of_lt hk]
  omega

/-! ### Concrete witness data -/

/-- A sample five-card one-pair hand. -/
def wHand : List Card :=
  [Card.mk "2" "Pik", Card.mk "3" "Kier", Card.mk "4" "Karo",
    Card.mk "5" "Trefl", Card.mk "7" "Pik"]

/-- A sample three-card remaining deck. -/
def wDeck : List Card :=
  [Card.mk "8" "Pik", Card.mk "9" "Kier", Card.mk "10" "Karo"]

/-- A sample full-house hand. -/
def wFullHouse : List Card :=
  [Card.mk "3" "Karo", Card.mk "3" "Kier", Card.mk "3" "Pik",
    Card.mk "7" "Karo", Card.mk "7" "Kier"]

/-- The Ace-low same-suit hand 2-3-4-5-As. -/
def wAceLow : List Card :=
  [Card.mk "2" "Pik", Card.mk "3" "Pik", Card.mk "4" "Pik",
    Card.mk "5" "Pik", Card.mk "As" "Pik"]

open Classical in
/-- C1 witness: the classification theorem instantiated on a concrete
full-house hand. -/
theorem evaluate_precedence_witness :
    (wFullHouse.mapM (fun c => value_order c.value)
      = some [3, 3, 3, 7, 7]) ∧
    wFullHouse.length = 5 ∧
    evaluate_hands wFullHouse = some
      (if specFlush wFullHouse ∧ specStraight [3, 3, 3, 7, 7] then ("Poker", 9)
       else if topCount [3, 3, 3, 7, 7] = 4 then ("Four of a Kind", 8)
       else if topCount [3, 3, 3, 7, 7] = 3 ∧ secondCount [3, 3, 3, 7, 7] = 2
         then ("Full House", 7)
       else if specFlush wFullHouse then ("Flush", 6)
       else if specStraight [3, 3, 3, 7, 7] then ("Straight", 5)
       else if topCount [3, 3, 3, 7, 7] = 3 then ("Three of a Kind", 4)
       else if topCount [3, 3, 3, 7, 7] = 2 ∧ secondCount [3, 3, 3, 7, 7] = 2
         then ("Two Pair", 3)
       else if topCount [3, 3, 3, 7, 7] = 2 then ("One Pair", 2)
       else ("High Card", 1)) :=
  ⟨rfl, rfl, evaluate_precedence wFullHouse [3, 3, 3, 7, 7] rfl rfl⟩

open Classical in
/-- C2 witness: the straight characterisation instantiated on the
Ace-low flush hand. -/
theorem straight_exact_no_ace_low_witness :
    (wAceLow.mapM (fun c => value_order c.value)
      = some [2, 3, 4, 5, 14]) ∧
    wAceLow.length = 5 ∧
    ((straightB [2, 3, 4, 5, 14] = true ↔
      ([2, 3, 4, 5, 14] : List Nat).Nodup ∧
        maxL [2, 3, 4, 5, 14] - minL [2, 3, 4, 5, 14] = 4) ∧
     value_order "As" = some 14 ∧
     ¬ specStraight [2, 3, 4, 5, 14] ∧
     evaluate_hands
       [Card.mk "2" "Pik", Card.mk "3" "Pik", Card.mk "4" "Pik",
         Card.mk "5" "Pik", Card.mk "As" "Pik"]
       = some ("Flush", 6)) :=
  ⟨rfl, rfl, straight_exact_no_ace_low wAceLow [2, 3, 4, 5, 14] rfl rfl⟩

/-- C3 witness: the amended insufficient-cards theorem instantiated on
the 1-card deck with 1 player and 2 cards requested. -/
theorem deal_cards_insufficient_drains_witness :
    (∀ d : List Card, (id d).Perm d) ∧
    ([Card.mk "2" "Pik"] : List Card).length < 1 * 2 ∧
    deal_cards id [Card.mk "2" "Pik"] 1 2 = (none, []) :=
  ⟨fun d => List.Perm.refl d, by decide,
    deal_cards_insufficient_drains id [Card.mk "2" "Pik"] 1 2
      (fun d => List.Perm.refl d) (by decide)⟩

/-- C5 witness: the winner-set theorem instantiated on evaluations with
strengths `[7, 7, 3]`. -/
theorem winners_are_max_strength_witness :
    ([(1, "a", 7), (2, "b", 7), (3, "c", 3)] : List Ev) ≠ [] ∧
    ((∃ w, winners_of [(1, "a", 7), (2, "b", 7), (3, "c", 3)] = some w ∧
        ∀ e, e ∈ w ↔ e ∈ ([(1, "a", 7), (2, "b", 7), (3, "c", 3)] : List Ev)
          ∧ strength e = maxL (([(1, "a", 7), (2, "b", 7), (3, "c", 3)]
            : List Ev).map strength)) ∧
      winners_of [(1, "a", 7), (2, "b", 7), (3, "c", 3)] =
        some [(1, "a", 7), (2, "b", 7)] ∧
      winners_of [(1, "a", 9), (2, "b", 3), (3, "c", 3)] =
        some [(1, "a", 9)]) :=
  ⟨by decide, winners_are_max_strength
    [(1, "a", 7), (2, "b", 7), (3, "c", 3)] (by decide)⟩

/-- C7 witness: the round-robin dealing theorem instantiated on a
two-card deck, one player, two cards per player. -/
theorem deal_cards_round_robin_witness :
    (∀ d : List Card, (id d).Perm d) ∧
    ([Card.mk "2" "Pik", Card.mk "5" "Kier"] : List Card).Nodup ∧
    1 * 2 ≤ ([Card.mk "2" "Pik", Card.mk "5" "Kier"] : List Card).length ∧
    ((∃ hands,
        deal_cards id [Card.mk "2" "Pik", Card.mk "5" "Kier"] 1 2 =
          (some hands, (id [Card.mk "2" "Pik", Card.mk "5" "Kier"]).take
            (([Card.mk "2" "Pik", Card.mk "5" "Kier"] : List Card).length
              - 1 * 2)) ∧
        hands.length = 1 ∧
        (∀ i, i < 1 → hands.getD i [] =
          picks (id [Card.mk "2" "Pik", Card.mk "5" "Kier"]) 1 i 2) ∧
        (∀ i, i < 1 → (hands.getD i []).length = 2) ∧
        hands.flatten.Nodup) ∧
      (deal_cards id create_deck 4 5).2.length = 32 ∧
      ((deal_cards id create_deck 4 5).1.getD []).length = 4 ∧
      (∀ h ∈ (deal_cards id create_deck 4 5).1.getD [], h.length = 5) ∧
      ((deal_cards id create_deck 4 5).1.getD []).flatten.Nodup) :=
  ⟨fun d => List.Perm.refl d, by decide, by decide,
    deal_cards_round_robin id [Card.mk "2" "Pik", Card.mk "5" "Kier"] 1 2
      (fun d => List.Perm.refl d) (by decide) (by decide)⟩

/-- C8 witness: the exchange theorem instantiated on the spec's own
example — positions `{1, 3}` on a five-card hand with a three-card
deck. -/
theorem exchange_cards_spec_witness :
    ((([1, 3] : List Int).dedup.filter (inRangeB wHand.length)).length
      ≤ wDeck.length) ∧
    ((exchange_cards [1, 3] wHand wDeck).1.length = wHand.length ∧
     (exchange_cards [1, 3] wHand wDeck).2 = wDeck.take (wDeck.length -
       (([1, 3] : List Int).dedup.filter (inRangeB wHand.length)).length) ∧
     (∀ j : Nat, j < wHand.length → ((j : Int) + 1) ∉ ([1, 3] : List Int) →
       (exchange_cards [1, 3] wHand wDeck).1.getD j default
         = wHand.getD j default) ∧
     (∀ i : Int, i ∈ ([1, 3] : List Int) → 1 ≤ i → i ≤ (wHand.length : Int) →
       (exchange_cards [1, 3] wHand wDeck).1.getD (i - 1).toNat default
         = wDeck.getD (wDeck.length - 1 -
             (([1, 3] : List Int).dedup.filter (fun j => inRangeB wHand.length j
               && decide (i < j))).length) default) ∧
     exchange_cards [] wHand wDeck = (wHand, wDeck)) :=
  ⟨by decide, exchange_cards_spec [1, 3] wHand wDeck (by decide)⟩

/-- C9 witness: the deck-exhausted behaviour instantiated at position 2
of a five-card hand with one further position pending. -/
theorem exchange_deck_exhausted_witness :
    ((1 : Int) ≤ 2) ∧ ((2 : Int) ≤ (wHand.length : Int)) ∧
    (exchangeLoop (2 :: [1]) wHand [] =
      exchangeLoop [1] (wHand.eraseIdx ((2 : Int) - 1).toNat) [] ∧
    (wHand.eraseIdx ((2 : Int) - 1).toNat).length + 1 = wHand.length) :=
  ⟨by decide, by decide,
    exchange_deck_exhausted wHand 2 [1] (by decide) (by decide)⟩

/-- C10 witness: multiset conservation instantiated on a two-card deck,
one player, two cards per player. -/
theorem deal_cards_conserves_witness :
    (∀ d : List Card, (id d).Perm d) ∧
    1 * 2 ≤ ([Card.mk "2" "Pik", Card.mk "5" "Kier"] : List Card).length ∧
    (∃ hands rest,
      deal_cards id [Card.mk "2" "Pik", Card.mk "5" "Kier"] 1 2 =
        (some hands, rest) ∧
      (hands.flatten ++ rest).Perm [Card.mk "2" "Pik", Card.mk "5" "Kier"]) :=
  ⟨fun d => List.Perm.refl d, by decide,
    deal_cards_conserves id [Card.mk "2" "Pik", Card.mk "5" "Kier"] 1 2
      (fun d => List.Perm.refl d) (by decide)⟩

end Poker
